import Mathlib

/-!
Verification development for a three-script dataframe workflow:

* a synthetic-data materializer (datasetup.py): loads an npz bundle of
  arrays, flattens the store x product x time cube into a long table with
  derived calendar dates, and writes it out;
* a pandas analysis pipeline (pandasuse.py) and a polars analysis pipeline
  (polarsuse.py): load the long table, one-hot encode the weekday of each
  date, aggregate to product-date grain, fit one OLS regression per product
  and assemble a coefficient table.

Modelling conventions.  Calendar dates are integer day numbers counted
from 1970-01-01 (a Thursday), the day resolution of the timestamp types
both dataframe libraries use.  Numeric cell values are rationals.  The
statsmodels OLS fitter is an external library; the pipelines are
parametrised over it as an abstract function from a design matrix and a
response vector to a fitted result (the spec records that this fit is
deterministic in its inputs).  Polars group_by returns its groups in an
unspecified order; the embedding canonicalises that order by sorting on
the group key, which fixes a representative of the unspecified ordering
and leaves the logical (key-indexed) content of every group untouched.
-/

/-- Day number of the fixed epoch 2025-06-01 (a Sunday) used by
datasetup.py, counted in days since 1970-01-01. -/
def epochDay : Int := 20240

/-- pandas Series.dt.dayofweek: Monday is 0, Sunday is 6.  Day 0 of the
representation (1970-01-01) is a Thursday, hence the shift by 3. -/
def dayofweek (d : Int) : Nat := ((d + 3) % 7).toNat

/-- polars .dt.weekday(): ISO numbering, Monday is 1, Sunday is 7. -/
def weekdayIso (d : Int) : Nat := ((d + 3) % 7).toNat + 1

/-- A row of the long-format input table read by both analysis pipelines,
after the rename of the synth_sales_data column to sales. -/
structure InRow where
  store_id : Nat
  product_id : Nat
  date : Int
  sales : ℚ
  fitted_line : ℚ
deriving DecidableEq

/-- Does some row of the table fall on pandas weekday w?  Determines
whether get_dummies creates a column for category w. -/
def hasDow (t : List InRow) (w : Nat) : Bool :=
  t.any fun r => dayofweek r.date == w

/-- The day-of-week categories present in the table, in sorted order:
the columns pd.get_dummies creates (pandasuse.py line 45). -/
def dowCats (t : List InRow) : List Nat :=
  (List.range 7).filter (hasDow t)

/-- Does some row of the table fall on ISO weekday w? -/
def hasIso (t : List InRow) (w : Nat) : Bool :=
  t.any fun r => weekdayIso r.date == w

/-- The ISO day-of-week categories present in the table, in sorted order:
the columns polars to_dummies creates (polarsuse.py line 46; the string
names dow_1 .. dow_7 sort identically to the numbers). -/
def isoCats (t : List InRow) : List Nat :=
  ((List.range 7).map (· + 1)).filter (hasIso t)

/-- One-hot indicator vector of weekday w over the retained category
columns, cast to float as in both scripts. -/
def indicator (w : Nat) (cats : List Nat) : List ℚ :=
  cats.map fun c => if w = c then 1 else 0

/-- A row of the feature-engineered table: the input row joined with the
one-hot day-of-week indicator columns. -/
structure FRow where
  store_id : Nat
  product_id : Nat
  date : Int
  sales : ℚ
  fitted_line : ℚ
  dums : List ℚ
deriving DecidableEq

/-- pandasuse.py lines 37-51: derive day_of_week, one-hot encode with
pd.get_dummies(..., drop_first=True) - columns are the categories present
in the data, sorted, minus the first - and join to the table. -/
def pandasFeatured (t : List InRow) : List FRow :=
  t.map fun r =>
    ⟨r.store_id, r.product_id, r.date, r.sales, r.fitted_line,
      indicator (dayofweek r.date) (dowCats t).tail⟩

/-- polarsuse.py lines 36-55: derive the ISO weekday, to_dummies over the
categories present, hstack, then df.drop of the dow_1 column, which raises
ColumnNotFoundError when that column is absent (strict drop), modelled by
returning none. -/
def polarsFeatured (t : List InRow) : Option (List FRow) :=
  if 1 ∈ isoCats t then
    some (t.map fun r =>
      ⟨r.store_id, r.product_id, r.date, r.sales, r.fitted_line,
        indicator (weekdayIso r.date) ((isoCats t).erase 1)⟩)
  else none

/-- A row at product-date grain: the columns kept by the group-by
aggregation (product_id, date, summed sales, indicator columns). -/
structure PRow where
  product_id : Nat
  date : Int
  sales : ℚ
  dums : List ℚ
deriving DecidableEq

/-- The group key of the aggregation. -/
def PRow.key (r : PRow) : Nat × Int := (r.product_id, r.date)

/-- Projection of a feature-engineered row to the columns the aggregation
reads (named aggregation drops store_id and fitted_line). -/
def FRow.toP (f : FRow) : PRow := ⟨f.product_id, f.date, f.sales, f.dums⟩

/-- Lexicographic order on (product_id, date) keys: the order in which
pandas groupby (sort=True, the default) emits its groups. -/
def keyLe (a b : Nat × Int) : Prop := a.1 < b.1 ∨ (a.1 = b.1 ∧ a.2 ≤ b.2)

instance : DecidableRel keyLe := fun a b => by unfold keyLe; exact inferInstance

instance : IsTotal (Nat × Int) keyLe := ⟨by intro a b; unfold keyLe; omega⟩

instance : IsTrans (Nat × Int) keyLe := ⟨by intro a b c; unfold keyLe; omega⟩

/-- The distinct (product_id, date) keys of a table, sorted: the index of
the aggregated table. -/
def sortedKeys (X : List PRow) : List (Nat × Int) :=
  List.insertionSort keyLe ((X.map PRow.key).dedup)

/-- The rows of a table belonging to one group key. -/
def groupRows (X : List PRow) (k : Nat × Int) : List PRow :=
  X.filter fun r => decide (r.key = k)

/-- The aggregated row of one group: summed sales, first indicator
values. -/
def aggRow (X : List PRow) (k : Nat × Int) : PRow :=
  ⟨k.1, k.2, ((groupRows X k).map PRow.sales).sum,
    (((groupRows X k).head?).map PRow.dums).getD []⟩

/-- The group-by-(product_id, date) aggregation shared by both pipelines
(pandasuse.py lines 68-71, polarsuse.py lines 67-70): sum the sales
column, take the first value of each indicator column. -/
def aggregate (X : List PRow) : List PRow :=
  (sortedKeys X).map (aggRow X)

/-- Result of one statsmodels OLS fit: estimated coefficients and their
p-values, indexed by design-column position (0 is the constant). -/
structure OLSFit where
  params : Nat → ℚ
  pvalues : Nat → ℚ

/-- The external OLS fitter, abstracted: design matrix and response in,
fitted result out. -/
def OLS : Type := List (List ℚ) → List ℚ → OLSFit

/-- The distinct product ids of an aggregated table, sorted: the order in
which pandas groupby("product_id") visits groups, and the canonical order
for the polars partition loop. -/
def productsOf (X : List PRow) : List Nat :=
  List.insertionSort (· ≤ ·) ((X.map PRow.product_id).dedup)

/-- The design matrix of one product group: sm.add_constant prepends a
column of ones to the indicator columns. -/
def designOf (g : List PRow) : List (List ℚ) :=
  g.map fun r => 1 :: r.dums

/-- The rows of the aggregated table for one product, in table order. -/
def productGroup (X : List PRow) (p : Nat) : List PRow :=
  X.filter fun r => decide (r.product_id = p)

/-- The per-product regression loop of both scripts: for each product,
fit OLS of the aggregated sales on the indicator columns plus a constant,
and key the result by product id. -/
def fitAll (ols : OLS) (X : List PRow) : List (Nat × OLSFit) :=
  (productsOf X).map fun p =>
    (p, ols (designOf (productGroup X p)) ((productGroup X p).map PRow.sales))

/-- The aggregated product-date table of the pandas pipeline. -/
def pandasAgg (t : List InRow) : List PRow :=
  aggregate ((pandasFeatured t).map FRow.toP)

/-- The per-product regression results of the pandas pipeline. -/
def pandasResults (ols : OLS) (t : List InRow) : List (Nat × OLSFit) :=
  fitAll ols (pandasAgg t)

/-- The aggregated product-date table of the polars pipeline (none when
the dow_1 drop fails). -/
def polarsAgg (t : List InRow) : Option (List PRow) :=
  (polarsFeatured t).map fun g => aggregate (g.map FRow.toP)

/-- The per-product regression results of the polars pipeline. -/
def polarsResults (ols : OLS) (t : List InRow) : Option (List (Nat × OLSFit)) :=
  (polarsAgg t).map (fitAll ols)

/-- Column names occurring in the assembled coefficient tables.  pandas
keeps the dummy names dow_c and pairs them with p_dow_c columns;
statsmodels renames the polars numpy columns to x1, x2, ... -/
inductive Col where
  | product_id : Col
  | const : Col
  | dow (c : Nat) : Col
  | pv_const : Col
  | pv_dow (c : Nat) : Col
  | xvar (i : Nat) : Col
deriving DecidableEq

/-- One row of the pandas coefficient table (pandasuse.py lines 102-109):
product_id, then model.params keyed by design-column name, then
model.pvalues under p_-prefixed names. -/
def pandasCoefRow (cats : List Nat) (p : Nat) (fit : OLSFit) : List (Col × ℚ) :=
  (Col.product_id, (p : ℚ)) ::
    (Col.const, fit.params 0) ::
      (cats.enum.map fun ic => (Col.dow ic.2, fit.params (ic.1 + 1))) ++
    (Col.pv_const, fit.pvalues 0) ::
      (cats.enum.map fun ic => (Col.pv_dow ic.2, fit.pvalues (ic.1 + 1)))

/-- The assembled pandas coefficient table: one row per fitted product. -/
def pandasCoefTable (ols : OLS) (t : List InRow) : List (List (Col × ℚ)) :=
  (pandasResults ols t).map fun pr => pandasCoefRow (dowCats t).tail pr.1 pr.2

/-- One row of the polars coefficient table (polarsuse.py lines 106-122):
model.params keyed by the statsmodels names const, x1, ..., xk, with the
product id appended last.  No p-values are collected. -/
def polarsCoefRow (k : Nat) (p : Nat) (fit : OLSFit) : List (Col × ℚ) :=
  ((Col.const, fit.params 0) ::
    ((List.range k).map fun i => (Col.xvar (i + 1), fit.params (i + 1)))) ++
  [(Col.product_id, (p : ℚ))]

/-- The assembled polars coefficient table (none when the pipeline failed
earlier). -/
def polarsCoefTable (ols : OLS) (t : List InRow) : Option (List (List (Col × ℚ))) :=
  (polarsResults ols t).map fun res =>
    res.map fun pr => polarsCoefRow ((isoCats t).erase 1).length pr.1 pr.2

/-!
The synthetic-data materializer (datasetup.py).
-/

/-- numpy C-order ravel of an S x P x N cube: index (s, p, t) lands at
flat position s*(P*N) + p*N + t.  Broadcasting the index arrays to the
cube shape and ravelling them enumerates exactly this order. -/
def ravel3 {α : Type} (S P N : Nat) (A : Nat → Nat → Nat → α) : List α :=
  (List.range S).flatMap fun s =>
    (List.range P).flatMap fun p =>
      (List.range N).map fun t => A s p t

/-- A row of the flat table written by datasetup.py. -/
structure FlatRow where
  store_id : Nat
  product_id : Nat
  date : Int
  synth_sales_data : ℚ
  fitted_line : ℚ
deriving DecidableEq

/-- datasetup.py lines 39-76: the flat table built from the broadcast
index columns, the derived dates (epoch plus time index) and the ravelled
data arrays.  Zipping five equal-shape ravelled columns row by row is the
ravel of the pointwise record. -/
def flatTable (S P N : Nat) (sales fitted : Nat → Nat → Nat → ℚ) : List FlatRow :=
  ravel3 S P N fun s p t =>
    ⟨s, p, epochDay + (t : Int), sales s p t, fitted s p t⟩

/-- A stored numpy array: its shape and its C-order flat data. -/
structure NpArray where
  shape : List Nat
  data : List ℚ
deriving DecidableEq

/-- A stored array is well-formed when its data has exactly one entry per
index tuple of its shape.  numpy arrays always satisfy this. -/
def NpArray.wf (a : NpArray) : Prop := a.data.length = a.shape.prod

/-- C-order 3-D indexing into a stored array whose trailing dimensions
are P and N. -/
def NpArray.at3 (a : NpArray) (P N s p t : Nat) : ℚ :=
  a.data.getD (s * (P * N) + p * N + t) 0

/-- The npz bundle datasetup.py loads: the three arrays dates,
synth_sales_data and fitted_line. -/
structure Bundle where
  dates : NpArray
  synth_sales_data : NpArray
  fitted_line : NpArray
deriving DecidableEq

/-- datasetup.py lines 29-81.  The dates array is printed and never used.
S, P, N are unpacked from synth_sales_data.shape (an error unless it has
exactly three dimensions).  The only other failure point is the DataFrame
constructor, which requires all five columns to have the same length: the
three broadcast index columns have length S*P*N by construction, so the
check reduces to the lengths of the two ravelled data arrays. -/
def materialize (b : Bundle) : Except String (List FlatRow) :=
  match b.synth_sales_data.shape with
  | [S, P, N] =>
      if b.synth_sales_data.data.length = S * (P * N) ∧
          b.fitted_line.data.length = S * (P * N) then
        .ok (flatTable S P N (b.synth_sales_data.at3 P N) (b.fitted_line.at3 P N))
      else .error "mismatched column lengths"
  | _ => .error "cannot unpack a non 3-D shape"

/-- Did the script run to completion (as opposed to dying with a stack
trace)? -/
def exceptOk {ε α : Type} : Except ε α → Bool
  | .ok _ => true
  | .error _ => false

/-- Date order on flat rows, for the round-trip reconstruction. -/
def dateLe (a b : FlatRow) : Prop := a.date ≤ b.date

instance : DecidableRel dateLe := fun a b => by unfold dateLe; exact inferInstance

/-- Modelled from the spec: the round-trip reconstruction, no part of the
scripts themselves - group the flat table by (store_id, product_id) and
order each group by date; the t-th row of the group should recover the
cube entries at time index t. -/
def reconGroup (tbl : List FlatRow) (s p : Nat) : List FlatRow :=
  List.insertionSort dateLe
    (tbl.filter fun r => decide (r.store_id = s) && decide (r.product_id = p))

/-!
List helpers for ravelled cubes.
-/

/-- Length of a flatMap whose pieces all have length L. -/
theorem length_flatMap_const {α β : Type} (f : α → List β) (L : Nat) :
    ∀ l : List α, (∀ a ∈ l, (f a).length = L) → (l.flatMap f).length = l.length * L := by
  intro l
  induction l with
  | nil => intro _; simp
  | cons a l ih =>
      intro h
      simp only [List.flatMap_cons, List.length_append, List.length_cons]
      rw [ih fun b hb => h b (List.mem_cons_of_mem a hb), h a (List.mem_cons_self a l),
        Nat.succ_mul]
      omega

/-- Indexing into a flatMap over an initial segment of the naturals, when
every piece has the same length L: position i*L + j falls inside piece i. -/
theorem getElem?_flatMap_range {β : Type} (f : Nat → List β) (L : Nat) :
    ∀ n i j : Nat, (∀ k, (f k).length = L) → i < n → j < L →
      ((List.range n).flatMap f)[i * L + j]? = (f i)[j]? := by
  intro n
  induction n with
  | zero => intro i j _ hi _; omega
  | succ n ih =>
      intro i j hL hi hj
      rw [List.range_succ, List.flatMap_append]
      have hlen : ((List.range n).flatMap f).length = n * L := by
        rw [length_flatMap_const f L _ fun a _ => hL a, List.length_range]
      by_cases h : i < n
      · rw [List.getElem?_append_left, ih i j hL h hj]
        rw [hlen]
        have h1 : (i + 1) * L ≤ n * L := Nat.mul_le_mul_right L h
        rw [Nat.succ_mul] at h1
        omega
      · have hin : i = n := by omega
        subst hin
        rw [List.getElem?_append_right (by rw [hlen]; omega)]
        have h2 : i * L + j - ((List.range i).flatMap f).length = j := by
          rw [hlen]; omega
        rw [h2]
        simp

/-- Indexing into the C-order ravel of a cube: flat position
s*(P*N) + p*N + t holds the cube entry at (s, p, t). -/
theorem getElem?_ravel3 {α : Type} (S P N : Nat) (A : Nat → Nat → Nat → α)
    (s p t : Nat) (hs : s < S) (hp : p < P) (ht : t < N) :
    (ravel3 S P N A)[s * (P * N) + p * N + t]? = some (A s p t) := by
  unfold ravel3
  have hpt : p * N + t < P * N := by
    have h1 : (p + 1) * N ≤ P * N := Nat.mul_le_mul_right N hp
    rw [Nat.succ_mul] at h1
    omega
  have hinner : ∀ k,
      ((List.range P).flatMap fun q => (List.range N).map fun u => A k q u).length = P * N := by
    intro k
    rw [length_flatMap_const _ N _ fun a _ => by simp, List.length_range]
  have hsplit : s * (P * N) + p * N + t = s * (P * N) + (p * N + t) := by omega
  rw [hsplit, getElem?_flatMap_range _ (P * N) S s (p * N + t) hinner hs hpt,
    getElem?_flatMap_range _ N P p t (fun k => by simp) hp ht]
  simp [List.getElem?_range ht]

/-- C5: in the materializer's flat table, the row at flat position
s*(P*N) + p*N + t carries store_id s, product_id p, the date
2025-06-01 plus t days, and the observed and fitted cube values at
(s, p, t): flattening preserves the index correspondence across all
arrays and the synthesized identifier columns. -/
theorem flatTable_row_at_flat_index (S P N : Nat) (sales fitted : Nat → Nat → Nat → ℚ)
    (s p t : Nat) (hs : s < S) (hp : p < P) (ht : t < N) :
    (flatTable S P N sales fitted)[s * (P * N) + p * N + t]? =
      some ⟨s, p, epochDay + (t : Int), sales s p t, fitted s p t⟩ :=
  getElem?_ravel3 S P N _ s p t hs hp ht

/-- Concrete observed array for the witnesses. -/
def wSales : Nat → Nat → Nat → ℚ := fun s p t => (s : ℚ) + 10 * p + 100 * t

/-- Concrete fitted array for the witnesses. -/
def wFitted : Nat → Nat → Nat → ℚ := fun s p t => (s * p * t : ℚ)

theorem flatTable_row_at_flat_index_witness :
    (1 < 2 ∧ 1 < 2 ∧ 2 < 3) ∧
      (flatTable 2 2 3 wSales wFitted)[1 * (2 * 3) + 1 * 3 + 2]? =
        some ⟨1, 1, epochDay + (2 : Int), wSales 1 1 2, wFitted 1 1 2⟩ :=
  ⟨by decide,
    flatTable_row_at_flat_index 2 2 3 wSales wFitted 1 1 2 (by decide) (by decide) (by decide)⟩

/-!
Correspondence between the pandas and the polars featurization.  The two
scripts number weekdays differently (pandas Monday = 0, polars ISO
Monday = 1), so their category sets correspond under the shift by one.
-/

/-- The ISO weekday is the pandas weekday shifted by one. -/
theorem weekdayIso_eq (d : Int) : weekdayIso d = dayofweek d + 1 := rfl

/-- Presence of ISO category w+1 is presence of pandas category w. -/
theorem hasIso_succ (t : List InRow) (w : Nat) : hasIso t (w + 1) = hasDow t w := by
  unfold hasIso hasDow
  congr 1
  funext r
  rw [weekdayIso_eq, Bool.eq_iff_iff]
  simp

/-- The ISO categories present are the shifted pandas categories. -/
theorem isoCats_eq (t : List InRow) : isoCats t = (dowCats t).map (· + 1) := by
  unfold isoCats dowCats
  rw [List.filter_map]
  have h : (hasIso t ∘ fun w => w + 1) = hasDow t := funext fun w => hasIso_succ t w
  rw [h]

/-- When a Monday occurs in the data, it is the smallest pandas category,
so get_dummies sorts it first and drop_first removes exactly it. -/
theorem dowCats_monday (t : List InRow) (hmon : hasDow t 0 = true) :
    dowCats t = 0 :: (([1, 2, 3, 4, 5, 6] : List Nat).filter (hasDow t)) := by
  unfold dowCats
  have h7 : List.range 7 = [0, 1, 2, 3, 4, 5, 6] := by decide
  rw [h7]
  simp [List.filter, hmon]

/-- Shifting both the weekday and the retained categories leaves the
one-hot indicator vector unchanged. -/
theorem indicator_succ_map (w : Nat) (L : List Nat) :
    indicator (w + 1) (L.map (· + 1)) = indicator w L := by
  unfold indicator
  rw [List.map_map]
  apply List.map_congr_left
  intro c _
  simp [Function.comp]

/-- When a Monday occurs in the data, the polars featurization succeeds
and produces exactly the pandas feature-engineered table: same rows, same
retained categories (Tuesday through the last present weekday), same
indicator values. -/
theorem polarsFeatured_eq_pandas (t : List InRow) (hmon : hasDow t 0 = true) :
    polarsFeatured t = some (pandasFeatured t) := by
  have hiso : isoCats t = (dowCats t).map (· + 1) := isoCats_eq t
  have hcats : dowCats t = 0 :: ([1, 2, 3, 4, 5, 6].filter (hasDow t)) :=
    dowCats_monday t hmon
  have h1mem : 1 ∈ isoCats t := by
    rw [hiso, hcats]
    simp
  have herase : (isoCats t).erase 1 = (dowCats t).tail.map (· + 1) := by
    rw [hiso, hcats]
    simp [List.erase_cons_head]
  unfold polarsFeatured pandasFeatured
  rw [if_pos h1mem]
  congr 1
  apply List.map_congr_left
  intro r _
  have hdums : indicator (weekdayIso r.date) ((isoCats t).erase 1) =
      indicator (dayofweek r.date) (dowCats t).tail := by
    rw [herase, weekdayIso_eq, indicator_succ_map]
  exact congrArg (FRow.mk r.store_id r.product_id r.date r.sales r.fitted_line) hdums

/-- C1 (amended): when at least one input date falls on a Monday (the
baseline weekday), the pandas and the polars pipeline variants produce
identical logical output: the polars run succeeds and its per-product
regression results - product id set, fitted intercept and every retained
weekday-indicator coefficient (six of them when all seven weekdays occur)
- coincide with the pandas results, the two variants differing only in
how the coefficient columns are subsequently named. -/
theorem pipelines_equivalent (ols : OLS) (t : List InRow) (hmon : hasDow t 0 = true) :
    polarsResults ols t = some (pandasResults ols t) := by
  unfold polarsResults polarsAgg pandasResults pandasAgg
  rw [polarsFeatured_eq_pandas t hmon]
  rfl

/-- A degenerate but well-typed stand-in for the external OLS fitter,
used to instantiate concrete runs. -/
def olsTriv : OLS := fun _ _ => ⟨fun _ => 0, fun _ => 0⟩

/-- A one-row input table whose only date (day 5, 1970-01-06) is a
Tuesday: no Monday occurs. -/
def tableTue : List InRow := [⟨0, 0, 5, 3, 0⟩]

/-- C1 (counterexample to the original claim): on a well-formed input
table with no Monday, the polars variant fails at the dow_1 drop and
produces no output at all, while the pandas variant produces a one-product
result - so the two variants do not produce identical logical output on
every well-formed input table. -/
theorem pipelines_differ_without_monday :
    (∀ r ∈ tableTue, dayofweek r.date = 1) ∧
      (polarsResults olsTriv tableTue).isNone = true ∧
      (pandasResults olsTriv tableTue).length = 1 := by
  refine ⟨by decide, by decide, by decide⟩

/-- A two-row input table containing a Monday (day 4, 1970-01-05) and a
Tuesday (day 5). -/
def tableMon : List InRow := [⟨0, 0, 4, 3, 0⟩, ⟨0, 1, 5, 2, 1⟩]

theorem pipelines_equivalent_witness :
    hasDow tableMon 0 = true ∧
      polarsResults olsTriv tableMon = some (pandasResults olsTriv tableMon) :=
  ⟨by decide, pipelines_equivalent olsTriv tableMon (by decide)⟩

/-!
Indicator column invariants (one-hot structure of the featurized table).
-/

/-- Every entry of an indicator vector is 0 or 1. -/
theorem indicator_mem_01 (w : Nat) (cats : List Nat) :
    ∀ x ∈ indicator w cats, x = 0 ∨ x = 1 := by
  intro x hx
  unfold indicator at hx
  rcases List.mem_map.mp hx with ⟨c, _, hc⟩
  by_cases h : w = c
  · right
    rw [← hc]
    simp [h]
  · left
    rw [← hc]
    simp [h]

/-- Over duplicate-free categories the indicator entries sum to 1 when
the weekday is among them and to 0 otherwise. -/
theorem indicator_sum (w : Nat) (cats : List Nat) (h : cats.Nodup) :
    (indicator w cats).sum = if w ∈ cats then (1 : ℚ) else 0 := by
  induction cats with
  | nil => simp [indicator]
  | cons c rest ih =>
      rw [List.nodup_cons] at h
      unfold indicator at *
      simp only [List.map_cons, List.sum_cons]
      rw [ih h.2]
      by_cases hw : w = c
      · subst hw
        simp [h.1]
      · simp [hw, List.mem_cons]

/-- Over duplicate-free categories the entry 1 occurs at most once in an
indicator vector (mutual exclusivity of the indicator columns). -/
theorem indicator_count_one (w : Nat) (cats : List Nat) (h : cats.Nodup) :
    (indicator w cats).count 1 = if w ∈ cats then 1 else 0 := by
  induction cats with
  | nil => simp [indicator]
  | cons c rest ih =>
      rw [List.nodup_cons] at h
      unfold indicator at *
      simp only [List.map_cons, List.count_cons]
      rw [ih h.2]
      by_cases hw : w = c
      · subst hw
        have h1 : ¬ w ∈ rest := h.1
        simp [h1]
      · have h0 : ((if w = c then (1 : ℚ) else 0) == 1) = false := by
          simp [hw]
        rw [h0]
        simp [hw, List.mem_cons]

/-- The pandas weekday of any date is one of 0..6. -/
theorem dayofweek_lt (d : Int) : dayofweek d < 7 := by
  unfold dayofweek
  have h1 : 0 ≤ (d + 3) % 7 := Int.emod_nonneg _ (by norm_num)
  have h2 : (d + 3) % 7 < 7 := Int.emod_lt_of_pos _ (by norm_num)
  omega

/-- The weekday of every row of the table is a present category. -/
theorem mem_dowCats (t : List InRow) (r : InRow) (hr : r ∈ t) :
    dayofweek r.date ∈ dowCats t := by
  unfold dowCats
  rw [List.mem_filter]
  refine ⟨List.mem_range.mpr (dayofweek_lt r.date), ?_⟩
  unfold hasDow
  rw [List.any_eq_true]
  exact ⟨r, hr, by simp⟩

/-- The ISO weekday of every row of the table is a present ISO category. -/
theorem mem_isoCats (t : List InRow) (r : InRow) (hr : r ∈ t) :
    weekdayIso r.date ∈ isoCats t := by
  rw [isoCats_eq, weekdayIso_eq]
  exact List.mem_map.mpr ⟨dayofweek r.date, mem_dowCats t r hr, rfl⟩

/-- The present pandas categories are duplicate-free. -/
theorem dowCats_nodup (t : List InRow) : (dowCats t).Nodup :=
  List.Nodup.filter _ (List.nodup_range 7)

/-- The present ISO categories are duplicate-free. -/
theorem isoCats_nodup (t : List InRow) : (isoCats t).Nodup := by
  rw [isoCats_eq]
  exact (dowCats_nodup t).map fun a b h => by omega

/-- The baseline (reference) weekday of the pandas variant: the first
present category, the one get_dummies drop_first removes. -/
def pandasBaseline (t : List InRow) : Nat := (dowCats t).headD 0

/-- C3: in each variant's feature-engineered table, every row's retained
weekday-indicator entries are each 0 or 1, mutually exclusive (the entry
1 occurs at most once), sum to at most 1, and sum to exactly 1 precisely
when the row's date does not fall on the baseline weekday - the first
present category for pandas get_dummies drop_first, Monday (ISO 1) for
the polars dow_1 drop - so retained indicators plus the implicit baseline
indicator always account for exactly one category per row. -/
theorem featured_indicator_invariants (t : List InRow) :
    (∀ f ∈ pandasFeatured t,
      (∀ x ∈ f.dums, x = 0 ∨ x = 1) ∧ f.dums.count 1 ≤ 1 ∧ f.dums.sum ≤ 1 ∧
        (f.dums.sum = 1 ↔ dayofweek f.date ≠ pandasBaseline t)) ∧
    (∀ g, polarsFeatured t = some g → ∀ f ∈ g,
      (∀ x ∈ f.dums, x = 0 ∨ x = 1) ∧ f.dums.count 1 ≤ 1 ∧ f.dums.sum ≤ 1 ∧
        (f.dums.sum = 1 ↔ weekdayIso f.date ≠ 1)) := by
  constructor
  · intro f hf
    rcases List.mem_map.mp hf with ⟨r, hr, hfr⟩
    have hw : dayofweek r.date ∈ dowCats t := mem_dowCats t r hr
    have hcats : ∃ c0 rest, dowCats t = c0 :: rest := by
      rcases hdc : dowCats t with _ | ⟨c0, rest⟩
      · rw [hdc] at hw
        cases hw
      · exact ⟨c0, rest, rfl⟩
    rcases hcats with ⟨c0, rest, hdc⟩
    have hnd : (dowCats t).Nodup := dowCats_nodup t
    rw [hdc, List.nodup_cons] at hnd
    have hdums : f.dums = indicator (dayofweek r.date) rest := by
      rw [← hfr, hdc]
      rfl
    have hdate : f.date = r.date := by rw [← hfr]
    have hbase : pandasBaseline t = c0 := by
      unfold pandasBaseline
      rw [hdc]
      rfl
    have hmem : dayofweek r.date ∈ rest ↔ dayofweek r.date ≠ c0 := by
      rw [hdc, List.mem_cons] at hw
      constructor
      · intro h1 h2
        rw [h2] at h1
        exact hnd.1 h1
      · intro h1
        rcases hw with h2 | h2
        · exact absurd h2 h1
        · exact h2
    refine ⟨?_, ?_, ?_, ?_⟩
    · rw [hdums]
      exact indicator_mem_01 _ _
    · rw [hdums, indicator_count_one _ _ hnd.2]
      split <;> omega
    · rw [hdums, indicator_sum _ _ hnd.2]
      split <;> norm_num
    · rw [hdums, indicator_sum _ _ hnd.2, hdate, hbase]
      by_cases h1 : dayofweek r.date ∈ rest
      · simp [h1, hmem.mp h1]
      · have h2 : dayofweek r.date = c0 := by
          by_contra h3
          exact h1 (hmem.mpr h3)
        simp [h1, h2, hnd.1]
  · intro g hg f hf
    unfold polarsFeatured at hg
    by_cases h1 : 1 ∈ isoCats t
    · rw [if_pos h1, Option.some_inj] at hg
      rw [← hg] at hf
      rcases List.mem_map.mp hf with ⟨r, hr, hfr⟩
      have hw : weekdayIso r.date ∈ isoCats t := mem_isoCats t r hr
      have hnd : ((isoCats t).erase 1).Nodup := (isoCats_nodup t).erase 1
      have hdums : f.dums = indicator (weekdayIso r.date) ((isoCats t).erase 1) := by
        rw [← hfr]
      have hdate : f.date = r.date := by rw [← hfr]
      have hmem : weekdayIso r.date ∈ (isoCats t).erase 1 ↔ weekdayIso r.date ≠ 1 := by
        rw [(isoCats_nodup t).mem_erase_iff]
        constructor
        · intro h2
          exact h2.1
        · intro h2
          exact ⟨h2, hw⟩
      refine ⟨?_, ?_, ?_, ?_⟩
      · rw [hdums]
        exact indicator_mem_01 _ _
      · rw [hdums, indicator_count_one _ _ hnd]
        split <;> omega
      · rw [hdums, indicator_sum _ _ hnd]
        split <;> norm_num
      · rw [hdums, indicator_sum _ _ hnd, hdate]
        by_cases h2 : weekdayIso r.date ∈ (isoCats t).erase 1
        · simp [h2, hmem.mp h2]
        · have h3 : weekdayIso r.date = 1 := by
            by_contra h4
            exact h2 (hmem.mpr h4)
          have h5 : (1 : Nat) ∉ (isoCats t).erase 1 := fun hmem1 =>
            (((isoCats_nodup t).mem_erase_iff).mp hmem1).1 rfl
          simp [h2, h3, h5]
    · rw [if_neg h1] at hg
      cases hg

/-- A concrete featurized row of tableMon: the Tuesday row, whose single
retained indicator (Tuesday) is set. -/
def fW : FRow := ⟨0, 1, 5, 2, 1, [1]⟩

theorem featured_indicator_invariants_witness :
    fW ∈ pandasFeatured tableMon ∧
      (fW.dums.sum = 1 ↔ dayofweek fW.date ≠ pandasBaseline tableMon) :=
  ⟨by decide, ((featured_indicator_invariants tableMon).1 fW (by decide)).2.2.2⟩

/-!
Properties of the shared aggregation step.
-/

/-- The key of an aggregated row is its group key. -/
theorem aggRow_key (X : List PRow) (k : Nat × Int) : (aggRow X k).key = k := rfl

/-- The aggregated table carries exactly the sorted distinct keys. -/
theorem aggregate_map_key (X : List PRow) :
    (aggregate X).map PRow.key = sortedKeys X := by
  unfold aggregate
  rw [List.map_map]
  have h : (PRow.key ∘ aggRow X) = id := funext fun k => aggRow_key X k
  rw [h, List.map_id]

/-- The sorted distinct keys are duplicate-free. -/
theorem sortedKeys_nodup (X : List PRow) : (sortedKeys X).Nodup :=
  ((List.perm_insertionSort keyLe _).nodup_iff).mpr (List.nodup_dedup _)

/-- The sorted distinct keys are sorted. -/
theorem sortedKeys_sorted (X : List PRow) : List.Sorted keyLe (sortedKeys X) :=
  List.sorted_insertionSort keyLe _

/-- A key occurs among the sorted distinct keys iff some row carries it. -/
theorem mem_sortedKeys (X : List PRow) (k : Nat × Int) :
    k ∈ sortedKeys X ↔ k ∈ X.map PRow.key := by
  unfold sortedKeys
  rw [(List.perm_insertionSort keyLe _).mem_iff, List.mem_dedup]

/-- A populated group has a first row, it belongs to the table, and it
carries the group key. -/
theorem groupRows_head (X : List PRow) (k : Nat × Int) (hk : k ∈ X.map PRow.key) :
    ∃ r, (groupRows X k).head? = some r ∧ r ∈ X ∧ r.key = k := by
  rcases List.mem_map.mp hk with ⟨r0, hr0, hkey⟩
  have hmem : r0 ∈ groupRows X k := by
    unfold groupRows
    rw [List.mem_filter]
    exact ⟨hr0, by simp [hkey]⟩
  rcases hg : groupRows X k with _ | ⟨a, rest⟩
  · rw [hg] at hmem
    cases hmem
  · refine ⟨a, rfl, ?_, ?_⟩
    · have ha : a ∈ groupRows X k := by
        rw [hg]
        exact List.mem_cons_self a rest
      exact (List.mem_filter.mp ha).1
    · have ha : a ∈ groupRows X k := by
        rw [hg]
        exact List.mem_cons_self a rest
      exact of_decide_eq_true (List.mem_filter.mp ha).2

/-- C4: the aggregation step emits exactly one row per distinct
(product_id, date) pair of its input - the emitted keys are
duplicate-free and are precisely the keys present in the input - and in
that row the sales value is the sum of the group's sales while each
indicator column holds the group's common indicator value, well defined
because the indicators are a function of the date alone. -/
theorem aggregate_one_row_per_key (X : List PRow) (D : Int → List ℚ)
    (hD : ∀ r ∈ X, r.dums = D r.date) :
    ((aggregate X).map PRow.key).Nodup ∧
      (∀ k, k ∈ (aggregate X).map PRow.key ↔ k ∈ X.map PRow.key) ∧
      ∀ row ∈ aggregate X,
        row.sales = ((groupRows X row.key).map PRow.sales).sum ∧
          row.dums = D row.date := by
  refine ⟨?_, ?_, ?_⟩
  · rw [aggregate_map_key]
    exact sortedKeys_nodup X
  · intro k
    rw [aggregate_map_key]
    exact mem_sortedKeys X k
  · intro row hrow
    rcases List.mem_map.mp hrow with ⟨k, hk, hrk⟩
    have hkmem : k ∈ X.map PRow.key := (mem_sortedKeys X k).mp hk
    rcases groupRows_head X k hkmem with ⟨r, hhead, hrX, hrkey⟩
    have hkey : row.key = k := by
      rw [← hrk]
      exact aggRow_key X k
    constructor
    · rw [hkey, ← hrk]
      rfl
    · have h1 : r.date = k.2 := congrArg Prod.snd hrkey
      rw [← hrk]
      unfold aggRow
      rw [hhead]
      have h3 : r.dums = D r.date := hD r hrX
      rw [h1] at h3
      simpa using h3

/-- A featurized table whose indicators are the date's indicators over a
fixed category list (both pipelines produce such tables). -/
theorem aggregate_one_row_per_key_witness :
    (∀ r ∈ (pandasFeatured tableMon).map FRow.toP,
        r.dums = (fun d => indicator (dayofweek d) (dowCats tableMon).tail) r.date) ∧
      (((aggregate ((pandasFeatured tableMon).map FRow.toP)).map PRow.key).Nodup ∧
        (∀ k, k ∈ (aggregate ((pandasFeatured tableMon).map FRow.toP)).map PRow.key ↔
          k ∈ ((pandasFeatured tableMon).map FRow.toP).map PRow.key) ∧
        ∀ row ∈ aggregate ((pandasFeatured tableMon).map FRow.toP),
          row.sales = ((groupRows ((pandasFeatured tableMon).map FRow.toP) row.key).map
              PRow.sales).sum ∧
            row.dums = (fun d => indicator (dayofweek d) (dowCats tableMon).tail) row.date) :=
  ⟨by decide,
    aggregate_one_row_per_key ((pandasFeatured tableMon).map FRow.toP)
      (fun d => indicator (dayofweek d) (dowCats tableMon).tail) (by decide)⟩

/-!
Idempotence of the aggregation.
-/

/-- Filtering a duplicate-free list for one of its members yields exactly
that member. -/
theorem filter_eq_single {α : Type} [DecidableEq α] (a : α) :
    ∀ l : List α, l.Nodup → a ∈ l → l.filter (fun x => decide (x = a)) = [a] := by
  intro l
  induction l with
  | nil =>
      intro _ ha
      cases ha
  | cons b rest ih =>
      intro h ha
      rw [List.nodup_cons] at h
      rcases List.mem_cons.mp ha with h1 | h1
      · rw [List.filter_cons_of_pos (by simp [h1])]
        have h2 : rest.filter (fun x => decide (x = a)) = [] := by
          rw [List.filter_eq_nil_iff]
          intro x hx
          simp only [decide_eq_true_eq]
          intro h3
          rw [h3, h1] at hx
          exact h.1 hx
        rw [h2, h1]
      · by_cases h2 : b = a
        · subst h2
          exact absurd h1 h.1
        · rw [List.filter_cons_of_neg (by simp [h2])]
          exact ih h.2 h1

/-- In an aggregated table, the group of a key is the single aggregated
row of that key. -/
theorem groupRows_aggregate (X : List PRow) (k : Nat × Int) (hk : k ∈ sortedKeys X) :
    groupRows (aggregate X) k = [aggRow X k] := by
  unfold groupRows aggregate
  rw [List.filter_map]
  have h : ((fun r => decide (PRow.key r = k)) ∘ aggRow X) = fun x => decide (x = k) := by
    funext x
    simp [Function.comp, aggRow_key]
  rw [h, filter_eq_single k _ (sortedKeys_nodup X) hk]
  rfl

/-- The keys of an aggregated table are already deduplicated and sorted. -/
theorem sortedKeys_aggregate (X : List PRow) : sortedKeys (aggregate X) = sortedKeys X := by
  show List.insertionSort keyLe (((aggregate X).map PRow.key).dedup) = sortedKeys X
  rw [aggregate_map_key, List.dedup_eq_self.mpr (sortedKeys_nodup X)]
  exact (sortedKeys_sorted X).insertionSort_eq

/-- C8 (amended): aggregation is idempotent on its own outputs -
re-applying the group-by-(product_id, date) aggregation to the table the
aggregation step produced yields that table again, unchanged row for row.
(A table that is merely at product-date grain but not sorted by key is
not left literally unchanged, because the group-by sorts by the group
key; see the counterexample.) -/
theorem aggregate_idempotent (X : List PRow) : aggregate (aggregate X) = aggregate X := by
  have h1 : aggregate (aggregate X) = (sortedKeys X).map (aggRow (aggregate X)) := by
    show (sortedKeys (aggregate X)).map (aggRow (aggregate X)) = _
    rw [sortedKeys_aggregate]
  rw [h1]
  show _ = (sortedKeys X).map (aggRow X)
  apply List.map_congr_left
  intro k hk
  unfold aggRow
  rw [groupRows_aggregate X k hk]
  simp [aggRow]

/-- A two-row table already at product-date grain (distinct keys) whose
rows are not in sorted key order. -/
def tableGrain : List PRow := [⟨1, 0, 5, []⟩, ⟨0, 0, 3, []⟩]

/-- C8 (counterexample to the original claim): applying the aggregation
to a table that is already at product-date grain does not always yield
the same table - the group-by sorts the rows by (product_id, date), so an
unsorted grain-level table comes back reordered. -/
theorem aggregate_reorders_grain_table :
    (tableGrain.map PRow.key).Nodup ∧ aggregate tableGrain ≠ tableGrain := by
  refine ⟨by decide, by decide⟩

/-!
Rank deficiency handling in the per-product regression step.
-/

/-- An input table where product 0 covers all seven weekdays (days 4-10,
Monday through Sunday) and product 1 has a single row: product 1's
regression gets 1 aggregated row against 7 parameters (intercept plus six
retained indicators). -/
def tableDef : List InRow :=
  [⟨0, 0, 4, 1, 0⟩, ⟨0, 0, 5, 1, 0⟩, ⟨0, 0, 6, 1, 0⟩, ⟨0, 0, 7, 1, 0⟩,
   ⟨0, 0, 8, 1, 0⟩, ⟨0, 0, 9, 1, 0⟩, ⟨0, 0, 10, 1, 0⟩, ⟨0, 1, 4, 1, 0⟩]

/-- C2 (counterexample to the original claim): product 1 has one distinct
product-date row against seven regression parameters, yet the pipeline
performs no rank-deficiency detection - the coefficient table contains
product 1's row exactly like any other product's. -/
theorem rank_deficient_product_included :
    (productGroup (pandasAgg tableDef) 1).length = 1 ∧
      (dowCats tableDef).tail.length + 1 = 7 ∧
      ((pandasCoefTable olsTriv tableDef).map fun row => row.head?) =
        [some (Col.product_id, (0 : ℚ)), some (Col.product_id, (1 : ℚ))] := by
  refine ⟨by decide, by decide, by decide⟩

/-- C2 (amended): the per-product regression step performs no
rank-deficiency detection at all - every product of the aggregated table,
including any whose group has fewer distinct rows than regression
parameters, has its fitted coefficients included in the assembled summary
table like any other product (statsmodels computes pseudo-inverse based
estimates in the deficient case; nothing in either script checks rank or
filters the result out). -/
theorem every_product_included (ols : OLS) (t : List InRow) (p : Nat)
    (hp : p ∈ productsOf (pandasAgg t)) :
    (∃ row ∈ pandasCoefTable ols t, row.head? = some (Col.product_id, (p : ℚ))) ∧
      ∀ X, polarsAgg t = some X → ∀ q ∈ productsOf X,
        ∃ res, polarsCoefTable ols t = some res ∧
          ∃ row ∈ res, row.getLast? = some (Col.product_id, (q : ℚ)) := by
  constructor
  · unfold pandasCoefTable pandasResults fitAll
    rw [List.map_map]
    exact ⟨_, List.mem_map_of_mem _ hp, rfl⟩
  · intro X hX q hq
    unfold polarsCoefTable polarsResults
    rw [hX]
    refine ⟨_, rfl, ?_⟩
    unfold fitAll
    dsimp only
    rw [List.map_map]
    refine ⟨_, List.mem_map_of_mem _ hq, ?_⟩
    exact List.getLast?_concat _

theorem every_product_included_witness :
    1 ∈ productsOf (pandasAgg tableDef) ∧
      ((∃ row ∈ pandasCoefTable olsTriv tableDef,
          row.head? = some (Col.product_id, (1 : ℚ))) ∧
        ∀ X, polarsAgg tableDef = some X → ∀ q ∈ productsOf X,
          ∃ res, polarsCoefTable olsTriv tableDef = some res ∧
            ∃ row ∈ res, row.getLast? = some (Col.product_id, (q : ℚ))) :=
  ⟨by decide, every_product_included olsTriv tableDef 1 (by decide)⟩

/-!
Shape of the assembled coefficient tables.
-/

/-- Is a column a p-value column? -/
def isPv : Col → Bool
  | Col.pv_const => true
  | Col.pv_dow _ => true
  | _ => false

/-- The column list of every pandas coefficient-table row: product id,
intercept, one coefficient per retained weekday, then p-values for the
intercept and for each retained weekday. -/
def pandasCols (t : List InRow) : List Col :=
  Col.product_id :: Col.const :: ((dowCats t).tail.map Col.dow) ++
    Col.pv_const :: ((dowCats t).tail.map Col.pv_dow)

/-- The column list of every polars coefficient-table row: intercept, the
renamed coefficient columns x1..xk, and the product id - no p-value
columns. -/
def polarsCols (t : List InRow) : List Col :=
  (Col.const :: ((List.range ((isoCats t).erase 1).length).map fun i => Col.xvar (i + 1))) ++
    [Col.product_id]

/-- First components of enumerated name-value pairs are the names. -/
theorem map_fst_enum_pairs {α β : Type} (l : List α) (mk : α → β) (g : Nat → ℚ) :
    ((l.enum.map fun ic => (mk ic.2, g ic.1)).map Prod.fst) = l.map mk := by
  rw [List.map_map]
  have h : (Prod.fst ∘ fun ic : Nat × α => (mk ic.2, g ic.1)) = fun ic => mk ic.2 := rfl
  rw [h]
  have h2 : (fun ic : Nat × α => mk ic.2) = mk ∘ Prod.snd := rfl
  rw [h2, ← List.map_map, List.enum_map_snd]

/-- The columns of one pandas coefficient row. -/
theorem pandasCoefRow_cols (cats : List Nat) (p : Nat) (fit : OLSFit) :
    (pandasCoefRow cats p fit).map Prod.fst =
      Col.product_id :: Col.const :: (cats.map Col.dow) ++
        Col.pv_const :: (cats.map Col.pv_dow) := by
  unfold pandasCoefRow
  simp only [List.map_cons, List.map_append]
  rw [map_fst_enum_pairs cats Col.dow fun i => fit.params (i + 1),
    map_fst_enum_pairs cats Col.pv_dow fun i => fit.pvalues (i + 1)]

/-- The columns of one polars coefficient row. -/
theorem polarsCoefRow_cols (k p : Nat) (fit : OLSFit) :
    (polarsCoefRow k p fit).map Prod.fst =
      (Col.const :: ((List.range k).map fun i => Col.xvar (i + 1))) ++ [Col.product_id] := by
  unfold polarsCoefRow
  simp only [List.map_cons, List.map_append, List.map_map]
  rfl

/-- No polars coefficient column is a p-value column. -/
theorem polarsCols_no_pv (t : List InRow) : (polarsCols t).any isPv = false := by
  rw [List.any_eq_false]
  intro x hx
  unfold polarsCols at hx
  rcases List.mem_append.mp hx with h | h
  · rcases List.mem_cons.mp h with h1 | h1
    · subst h1
      simp [isPv]
    · rcases List.mem_map.mp h1 with ⟨i, _, h2⟩
      rw [← h2]
      simp [isPv]
  · rcases List.mem_cons.mp h with h1 | h1
    · subst h1
      simp [isPv]
    · cases h1

/-- The distinct product ids of a table are duplicate-free. -/
theorem productsOf_nodup (X : List PRow) : (productsOf X).Nodup :=
  ((List.perm_insertionSort _ _).nodup_iff).mpr (List.nodup_dedup _)

/-- Product membership in the fitted products list. -/
theorem mem_productsOf (X : List PRow) (p : Nat) :
    p ∈ productsOf X ↔ p ∈ X.map PRow.product_id := by
  unfold productsOf
  rw [(List.perm_insertionSort _ _).mem_iff, List.mem_dedup]

/-- Product ids of the aggregated table are the first key components. -/
theorem map_product_id_aggregate (X : List PRow) :
    (aggregate X).map PRow.product_id = (sortedKeys X).map Prod.fst := by
  unfold aggregate
  rw [List.map_map]
  rfl

/-- The fitted products of the pandas pipeline are exactly the distinct
product ids of the input table. -/
theorem mem_products_pandasAgg (t : List InRow) (p : Nat) :
    p ∈ productsOf (pandasAgg t) ↔ p ∈ t.map InRow.product_id := by
  rw [mem_productsOf]
  unfold pandasAgg
  rw [map_product_id_aggregate]
  constructor
  · intro h
    rcases List.mem_map.mp h with ⟨k, hk, hkp⟩
    have h2 := (mem_sortedKeys _ k).mp hk
    rcases List.mem_map.mp h2 with ⟨r, hr, hrk⟩
    rcases List.mem_map.mp hr with ⟨f, hf, hfr⟩
    rcases List.mem_map.mp hf with ⟨x, hx, hxf⟩
    refine List.mem_map.mpr ⟨x, hx, ?_⟩
    rw [← hkp, ← hrk, ← hfr, ← hxf]
    rfl
  · intro h
    rcases List.mem_map.mp h with ⟨x, hx, hxp⟩
    have hf : (⟨x.store_id, x.product_id, x.date, x.sales, x.fitted_line,
        indicator (dayofweek x.date) (dowCats t).tail⟩ : FRow) ∈ pandasFeatured t :=
      List.mem_map_of_mem _ hx
    have hr := List.mem_map_of_mem FRow.toP hf
    have hk := List.mem_map_of_mem PRow.key hr
    refine List.mem_map.mpr ⟨_, (mem_sortedKeys _ _).mpr hk, ?_⟩
    rw [← hxp]
    rfl

/-- The last cell of a polars coefficient row is the product id. -/
theorem polarsCoefRow_getLast (k p : Nat) (fit : OLSFit) :
    (polarsCoefRow k p fit).getLast? = some (Col.product_id, (p : ℚ)) := by
  unfold polarsCoefRow
  exact List.getLast?_concat _

/-- C9 (counterexample to the original claim): on a concrete two-product
run, no row of the polars coefficient table carries any p-value column,
while every pandas row does - so it is not true that in each pipeline
variant the assembled table contains a p-value for the intercept and for
each weekday coefficient. -/
theorem polars_coef_rows_have_no_pvalues :
    (((polarsCoefTable olsTriv tableMon).getD []).map fun row =>
        (row.map Prod.fst).any isPv) = [false, false] ∧
      ((pandasCoefTable olsTriv tableMon).map fun row =>
        (row.map Prod.fst).any isPv) = [true, true] := by
  refine ⟨by decide, by decide⟩

/-- C9 (amended): each variant's coefficient table has exactly one row
per distinct product_id of the input.  A pandas row's columns are the
product id, the intercept, one coefficient per retained weekday
indicator, and a p-value for the intercept and for each indicator.  A
polars row's columns are the intercept, the renamed indicator
coefficients x1..xk and the product id, with no p-value columns at all
(polarsuse.py collects only model.params). -/
theorem coef_table_shape (ols : OLS) (t : List InRow) (hmon : hasDow t 0 = true) :
    ((pandasCoefTable ols t).map fun row => row.head?.map Prod.snd) =
        (productsOf (pandasAgg t)).map (fun p : Nat => some ((p : ℚ))) ∧
      (productsOf (pandasAgg t)).Nodup ∧
      (∀ p, p ∈ productsOf (pandasAgg t) ↔ p ∈ t.map InRow.product_id) ∧
      (∀ row ∈ pandasCoefTable ols t, row.map Prod.fst = pandasCols t) ∧
      ∃ res, polarsCoefTable ols t = some res ∧
        (res.map fun row => row.getLast?.map Prod.snd) =
          (productsOf (pandasAgg t)).map (fun p : Nat => some ((p : ℚ))) ∧
        ∀ row ∈ res, row.map Prod.fst = polarsCols t ∧
          (row.map Prod.fst).any isPv = false := by
  have hpolars : polarsCoefTable ols t =
      some ((fitAll ols (pandasAgg t)).map fun pr =>
        polarsCoefRow ((isoCats t).erase 1).length pr.1 pr.2) := by
    unfold polarsCoefTable polarsResults polarsAgg
    rw [polarsFeatured_eq_pandas t hmon]
    rfl
  refine ⟨?_, productsOf_nodup _, mem_products_pandasAgg t, ?_, ?_⟩
  · unfold pandasCoefTable pandasResults fitAll
    rw [List.map_map, List.map_map]
    rfl
  · intro row hrow
    unfold pandasCoefTable at hrow
    rcases List.mem_map.mp hrow with ⟨pr, _, hpr⟩
    rw [← hpr, pandasCoefRow_cols]
    rfl
  · refine ⟨_, hpolars, ?_, ?_⟩
    · unfold fitAll
      rw [List.map_map, List.map_map]
      apply List.map_congr_left
      intro p _
      simp only [Function.comp_apply]
      rw [polarsCoefRow_getLast]
      rfl
    · intro row hrow
      rcases List.mem_map.mp hrow with ⟨pr, _, hpr⟩
      constructor
      · rw [← hpr, polarsCoefRow_cols]
        rfl
      · rw [← hpr, polarsCoefRow_cols]
        exact polarsCols_no_pv t

theorem coef_table_shape_witness :
    hasDow tableMon 0 = true ∧
      (((pandasCoefTable olsTriv tableMon).map fun row => row.head?.map Prod.snd) =
          (productsOf (pandasAgg tableMon)).map (fun p : Nat => some ((p : ℚ))) ∧
        (productsOf (pandasAgg tableMon)).Nodup ∧
        (∀ p, p ∈ productsOf (pandasAgg tableMon) ↔ p ∈ tableMon.map InRow.product_id) ∧
        (∀ row ∈ pandasCoefTable olsTriv tableMon, row.map Prod.fst = pandasCols tableMon) ∧
        ∃ res, polarsCoefTable olsTriv tableMon = some res ∧
          (res.map fun row => row.getLast?.map Prod.snd) =
            (productsOf (pandasAgg tableMon)).map (fun p : Nat => some ((p : ℚ))) ∧
          ∀ row ∈ res, row.map Prod.fst = polarsCols tableMon ∧
            (row.map Prod.fst).any isPv = false) :=
  ⟨by decide, coef_table_shape olsTriv tableMon (by decide)⟩

/-!
Round trip and shape handling of the materializer.
-/

/-- A range flatMap in which only one index contributes. -/
theorem flatMap_range_single {β : Type} (f : Nat → List β) (i : Nat) :
    ∀ n, i < n → (∀ k, k ≠ i → f k = []) → (List.range n).flatMap f = f i := by
  intro n
  induction n with
  | zero =>
      intro h _
      omega
  | succ n ih =>
      intro hi hz
      rw [List.range_succ, List.flatMap_append]
      by_cases h : i < n
      · rw [ih h hz]
        have hn : f n = [] := hz n (by omega)
        simp [hn]
      · have hin : i = n := by omega
        subst hin
        have hnil : (List.range i).flatMap f = [] := by
          rw [List.flatMap_eq_nil_iff]
          intro k hk
          have hki : k < i := List.mem_range.mp hk
          exact hz k (by omega)
        rw [hnil]
        simp

/-- Filtering the flat table down to one (store, product) pair leaves
exactly that pair's time-indexed block, in time order. -/
theorem filter_flatTable (S P N : Nat) (sales fitted : Nat → Nat → Nat → ℚ)
    (s p : Nat) (hs : s < S) (hp : p < P) :
    ((flatTable S P N sales fitted).filter
        fun r => decide (r.store_id = s) && decide (r.product_id = p)) =
      (List.range N).map fun t =>
        ⟨s, p, epochDay + (t : Int), sales s p t, fitted s p t⟩ := by
  unfold flatTable ravel3
  simp only [List.filter_flatMap]
  have hblock : ∀ s' p', (((List.range N).map fun t : Nat =>
      (⟨s', p', epochDay + (t : Int), sales s' p' t, fitted s' p' t⟩ : FlatRow)).filter
        fun r => decide (r.store_id = s) && decide (r.product_id = p)) =
      if s' = s ∧ p' = p then
        (List.range N).map fun t : Nat =>
          (⟨s', p', epochDay + (t : Int), sales s' p' t, fitted s' p' t⟩ : FlatRow)
      else [] := by
    intro s' p'
    rw [List.filter_map]
    by_cases h1 : s' = s
    · by_cases h2 : p' = p
      · have hc : ((fun r : FlatRow => decide (r.store_id = s) && decide (r.product_id = p)) ∘
            fun t : Nat => (⟨s', p', epochDay + (t : Int), sales s' p' t,
              fitted s' p' t⟩ : FlatRow)) = fun _ => true := by
          funext u
          simp [Function.comp, h1, h2]
        rw [hc, List.filter_true]
        simp [h1, h2]
      · have hc : ((fun r : FlatRow => decide (r.store_id = s) && decide (r.product_id = p)) ∘
            fun t : Nat => (⟨s', p', epochDay + (t : Int), sales s' p' t,
              fitted s' p' t⟩ : FlatRow)) = fun _ => false := by
          funext u
          simp [Function.comp, h2]
        rw [hc, List.filter_false]
        simp [h2]
    · have hc : ((fun r : FlatRow => decide (r.store_id = s) && decide (r.product_id = p)) ∘
          fun t : Nat => (⟨s', p', epochDay + (t : Int), sales s' p' t,
            fitted s' p' t⟩ : FlatRow)) = fun _ => false := by
        funext u
        simp [Function.comp, h1]
      rw [hc, List.filter_false]
      simp [h1]
  simp only [hblock]
  have houter : ∀ s', s' ≠ s → ((List.range P).flatMap fun p' =>
      if s' = s ∧ p' = p then
        (List.range N).map fun t : Nat =>
          (⟨s', p', epochDay + (t : Int), sales s' p' t, fitted s' p' t⟩ : FlatRow)
      else []) = [] := by
    intro s' hne
    rw [List.flatMap_eq_nil_iff]
    intro p' _
    rw [if_neg]
    intro hcon
    exact hne hcon.1
  rw [flatMap_range_single _ s S hs houter]
  have hinner : ∀ p', p' ≠ p →
      (if s = s ∧ p' = p then
        (List.range N).map fun t : Nat =>
          (⟨s, p', epochDay + (t : Int), sales s p' t, fitted s p' t⟩ : FlatRow)
      else []) = [] := by
    intro p' hne
    rw [if_neg]
    intro hcon
    exact hne hcon.2
  rw [flatMap_range_single _ p P hp hinner, if_pos ⟨rfl, rfl⟩]

/-- The (s, p) group of the flat table, ordered by date, is the
time-indexed block for (s, p). -/
theorem reconGroup_flatTable (S P N : Nat) (sales fitted : Nat → Nat → Nat → ℚ)
    (s p : Nat) (hs : s < S) (hp : p < P) :
    reconGroup (flatTable S P N sales fitted) s p =
      (List.range N).map fun t =>
        ⟨s, p, epochDay + (t : Int), sales s p t, fitted s p t⟩ := by
  unfold reconGroup
  rw [filter_flatTable S P N sales fitted s p hs hp]
  apply List.Sorted.insertionSort_eq
  show List.Pairwise _ _
  rw [List.pairwise_map]
  exact (List.pairwise_lt_range N).imp fun {a b} hab => by
    unfold dateLe
    dsimp only
    omega

/-- C7: reconstructing the cubes from the materializer's long-format
table - grouping rows by (store_id, product_id) and ordering by date -
reproduces the original synth_sales_data and fitted_line arrays exactly:
the t-th row of the (s, p) group carries the cube values at (s, p, t). -/
theorem round_trip_reconstruction (S P N : Nat) (sales fitted : Nat → Nat → Nat → ℚ)
    (s p t : Nat) (hs : s < S) (hp : p < P) (ht : t < N) :
    (reconGroup (flatTable S P N sales fitted) s p)[t]? =
      some ⟨s, p, epochDay + (t : Int), sales s p t, fitted s p t⟩ := by
  rw [reconGroup_flatTable S P N sales fitted s p hs hp]
  simp [List.getElem?_range ht]

theorem round_trip_reconstruction_witness :
    (1 < 2 ∧ 0 < 2 ∧ 2 < 3) ∧
      (reconGroup (flatTable 2 2 3 wSales wFitted) 1 0)[2]? =
        some ⟨1, 0, epochDay + (2 : Int), wSales 1 0 2, wFitted 1 0 2⟩ :=
  ⟨by decide, round_trip_reconstruction 2 2 3 wSales wFitted 1 0 2
    (by decide) (by decide) (by decide)⟩

instance (a : NpArray) : Decidable a.wf := by
  unfold NpArray.wf
  exact inferInstance

/-- A bundle whose three arrays all have pairwise different shapes but
whose two data arrays have the same element count. -/
def bundleCE : Bundle :=
  ⟨⟨[1], [0]⟩, ⟨[2, 3, 1], [0, 1, 2, 3, 4, 5]⟩, ⟨[3, 2, 1], [5, 4, 3, 2, 1, 0]⟩⟩

/-- C6 (counterexample to the original claim): a well-formed bundle whose
arrays' shapes disagree - fitted_line is 3x2x1 against synth_sales_data's
2x3x1, and the dates array disagrees with both - is accepted and a flat
table is produced, because the only effective check is the column-length
comparison in the DataFrame constructor. -/
theorem shape_mismatch_accepted :
    (bundleCE.dates.wf ∧ bundleCE.synth_sales_data.wf ∧ bundleCE.fitted_line.wf) ∧
      bundleCE.synth_sales_data.shape ≠ bundleCE.fitted_line.shape ∧
      bundleCE.dates.shape ≠ bundleCE.synth_sales_data.shape ∧
      exceptOk (materialize bundleCE) = true := by
  refine ⟨⟨by decide, by decide, by decide⟩, by decide, by decide, by decide⟩

/-- C6 (amended): the materializer fails exactly when synth_sales_data is
not 3-dimensional or the fitted_line data has a different element count
from the synth_sales_data data.  A fitted_line of different shape but
equal element count is silently accepted, and the dates array's shape is
never examined at all. -/
theorem materialize_ok_iff (b : Bundle)
    (h1 : b.synth_sales_data.wf) (h2 : b.fitted_line.wf) :
    exceptOk (materialize b) = true ↔
      (b.synth_sales_data.shape.length = 3 ∧
        b.fitted_line.data.length = b.synth_sales_data.data.length) := by
  rcases b with ⟨bd, ⟨ss, sd⟩, ⟨fs, fd⟩⟩
  unfold NpArray.wf at h1 h2
  dsimp only at h1 h2 ⊢
  rcases ss with _ | ⟨S, ss⟩
  · simp [materialize, exceptOk]
  rcases ss with _ | ⟨P, ss⟩
  · simp [materialize, exceptOk]
  rcases ss with _ | ⟨N, ss⟩
  · simp [materialize, exceptOk]
  rcases ss with _ | ⟨M, ss⟩
  · have hprod : sd.length = S * (P * N) := by
      simpa [mul_comm, mul_assoc] using h1
    unfold materialize
    dsimp only
    by_cases hc : sd.length = S * (P * N) ∧ fd.length = S * (P * N)
    · rw [if_pos hc]
      simp [exceptOk]
      omega
    · rw [if_neg hc]
      simp [exceptOk]
      omega
  · simp [materialize, exceptOk]

/-- A well-formed 1x1x2 bundle. -/
def bundleW : Bundle :=
  ⟨⟨[2], [0, 0]⟩, ⟨[1, 1, 2], [1, 2]⟩, ⟨[1, 1, 2], [3, 4]⟩⟩

theorem materialize_ok_iff_witness :
    bundleW.synth_sales_data.wf ∧ bundleW.fitted_line.wf ∧
      (exceptOk (materialize bundleW) = true ↔
        (bundleW.synth_sales_data.shape.length = 3 ∧
          bundleW.fitted_line.data.length = bundleW.synth_sales_data.data.length)) :=
  ⟨by decide, by decide, materialize_ok_iff bundleW (by decide) (by decide)⟩

/-- C10: the materializer's output is independent of the dates array in
the bundle: two bundles that agree on synth_sales_data and fitted_line
produce identical results whatever their dates arrays hold, because the
loaded dates array is only printed and the output dates are derived from
the time index and the fixed epoch alone. -/
theorem materialize_ignores_dates (d1 d2 sy fl : NpArray) :
    materialize ⟨d1, sy, fl⟩ = materialize ⟨d2, sy, fl⟩ := rfl
